import Mathlib

/-!
Verification development for the libhdfspp `RemoteBlockReader` component
(`block_reader.h`).  The configuration records (`CacheStrategy`,
`BlockReaderOptions`), the `State` enumeration and the constructor
initialisation are embedded directly from the header.  The packet-processing
engine itself lives in `remote_block_reader_impl.h`, which is not part of the
sources at hand; its behaviour is modelled from the specification of the
protocol state machine (handshake, packet header validation, checksum
verification, padding discard, data delivery, final acknowledgement).
-/

namespace hdfs

/-- From `block_reader.h` lines 29-37: `CacheStrategy` holds two
specified-or-not page-cache hints.  The default constructor sets
`drop_behind_specified(false), drop_behind(false), read_ahead_specified(false),
read_ahead(false)`; the last initialiser converts `false` to the integer 0. -/
structure CacheStrategy where
  drop_behind_specified : Bool
  drop_behind : Bool
  read_ahead_specified : Bool
  read_ahead : Nat
deriving DecidableEq, Repr

/-- The C++ default constructor `CacheStrategy()`. -/
def mkCacheStrategy : CacheStrategy :=
  { drop_behind_specified := false
    drop_behind := false
    read_ahead_specified := false
    read_ahead := 0 }

/-- From `block_reader.h` lines 45-48. -/
inductive EncryptionScheme where
  | kNone
  | kAESCTRNoPadding
deriving DecidableEq, Repr

/-- From `block_reader.h` lines 50-57: per-read configuration. -/
structure BlockReaderOptions where
  verify_checksum : Bool
  cache_strategy : CacheStrategy
  encryption_scheme : EncryptionScheme
deriving DecidableEq, Repr

/-- The C++ default constructor `BlockReaderOptions()` sets
`verify_checksum(true)` and `encryption_scheme(EncryptionScheme::kNone)`;
the `cache_strategy` member is default-constructed implicitly. -/
def mkBlockReaderOptions : BlockReaderOptions :=
  { verify_checksum := true
    cache_strategy := mkCacheStrategy
    encryption_scheme := EncryptionScheme.kNone }

namespace RemoteBlockReader

/-- From `block_reader.h` lines 90-97: the `State` enum of the reader.  It has
exactly the six members listed there; the per-step continuation structs
(`ReadPacketHeader`, ..., `AckRead`) are separate declarations, not states. -/
inductive State where
  | kOpen
  | kReadPacketHeader
  | kReadChecksum
  | kReadPadding
  | kReadData
  | kFinished
deriving DecidableEq, Repr, Fintype

/-- The fields of `hadoop::hdfs::PacketHeaderProto` used by the reader, per
the wire format: total packet length, offset of the packet in the block, the
sequence number, the last-packet flag and the data payload length. -/
structure PacketHeaderProto where
  packetLen : Nat
  offsetInBlock : Nat
  seqno : Nat
  lastPacketInBlock : Bool
  dataLen : Nat
deriving DecidableEq, Repr

/-- Modelled from the spec: one wire packet as parsed off the stream, with
its header record, its checksum bytes, its alignment padding bytes and its
data payload bytes (bytes are modelled as natural numbers). -/
structure Packet where
  header : PacketHeaderProto
  checksumBytes : List Nat
  paddingBytes : List Nat
  dataBytes : List Nat
deriving DecidableEq, Repr

/-- Modelled from the spec: the tagged status channel (`Status` in
`libhdfspp/status.h`, not among the sources).  Every outcome, success and
failure alike, is one of these tags; the error taxonomy is transport error,
protocol error, checksum-verification error, server-reported error and
logical-misuse error. -/
inductive Status where
  | ok
  | transportError
  | protocolError
  | checksumError
  | serverError
  | logicalMisuseError
deriving DecidableEq, Repr

/-- Modelled from the spec: the negotiated checksum algorithm, fixed by prior
negotiation: a chunk size and a function computing the checksum bytes of one
chunk of data. -/
structure ChecksumAlgo where
  chunkSize : Nat
  sumBytes : List Nat → List Nat

/-- Split a list into consecutive chunks of `c` elements (the last chunk may
be shorter); fuel-based so that it is structurally terminating. -/
def chunksOfAux (c : Nat) : Nat → List Nat → List (List Nat)
  | _, [] => []
  | 0, l => [l]
  | fuel + 1, l => l.take c :: chunksOfAux c fuel (l.drop c)

/-- Split data into checksum chunks of the negotiated chunk size. -/
def chunksOf (c : Nat) (l : List Nat) : List (List Nat) :=
  chunksOfAux c l.length l

/-- Modelled from the spec: the checksum bytes a correct server sends for a
packet's data: the concatenation of the per-chunk checksums. -/
def expectedChecksum (algo : ChecksumAlgo) (data : List Nat) : List Nat :=
  ((chunksOf algo.chunkSize data).map algo.sumBytes).flatten

/-- The mutable state of a `RemoteBlockReader` (fields of the C++ class at
`block_reader.h` lines 99-107, stream handle omitted), extended for the
model with the count of acknowledgement messages emitted and with `header_`
made optional to mark that no packet header has been decoded yet. -/
structure Reader where
  state : State
  options : BlockReaderOptions
  packetLen : Nat
  packetDataReadBytes : Nat
  chunkPaddingBytes : Nat
  bytesToRead : Int
  checksum : List Nat
  header : Option PacketHeaderProto
  acksEmitted : Nat
deriving DecidableEq, Repr

/-- The C++ constructor (`block_reader.h` lines 62-64): it initialises
`state_(kOpen)` and `chunk_padding_bytes_(0)` and stores the options; the
remaining counters are left to their default values. -/
def mkRemoteBlockReader (options : BlockReaderOptions) : Reader :=
  { state := State.kOpen
    options := options
    packetLen := 0
    packetDataReadBytes := 0
    chunkPaddingBytes := 0
    bytesToRead := 0
    checksum := []
    header := none
    acksEmitted := 0 }

/-- Modelled from the spec: the possible outcomes of the handshake exchange
performed by `request_block` (the implementation is not among the sources):
the server answers the read request successfully, the transport fails, the
response is malformed, or the server reports an error status. -/
inductive HandshakeResponse where
  | success
  | transportFailure
  | malformedResponse
  | serverErrorStatus
deriving DecidableEq, Repr

/-- Modelled from the spec: `request_block` sends the handshake and consumes
exactly one response from the server; on success the session is reset and
becomes ready to accept packet reads (`bytes_to_read_` set to the requested
length), on failure the corresponding tagged status is returned and no retry
is performed (the rest of the response stream is untouched). -/
def request_block (r : Reader) (len : Nat) :
    List HandshakeResponse → Status × Reader × List HandshakeResponse
  | [] => (Status.transportError, r, [])
  | resp :: rest =>
    match resp with
    | HandshakeResponse.success =>
      (Status.ok,
       { r with state := State.kReadPacketHeader
                packetLen := 0
                packetDataReadBytes := 0
                chunkPaddingBytes := 0
                bytesToRead := (len : Int)
                checksum := []
                header := none
                acksEmitted := 0 },
       rest)
    | HandshakeResponse.transportFailure => (Status.transportError, r, rest)
    | HandshakeResponse.malformedResponse => (Status.protocolError, r, rest)
    | HandshakeResponse.serverErrorStatus => (Status.serverError, r, rest)

/-- Modelled from the spec: the seqno check of the `ReadPacketHeader` step:
a packet's seqno must be the previous packet's seqno plus one; the first
packet of a session (no previous header) is accepted with any seqno. -/
def seqnoExpected (r : Reader) (h : PacketHeaderProto) : Bool :=
  match r.header with
  | none => true
  | some prev => h.seqno == prev.seqno + 1

/-- Modelled from the spec: the `ReadPacketHeader` step decodes the header
record and rejects the operation with a protocol error if the decoded
lengths are internally inconsistent (`data_length > packet_length`) or if the
seqno is not the expected next value; on success it stores the header, resets
the per-packet counters and records the pending padding byte count. -/
def stepReadPacketHeader (r : Reader) (p : Packet) : Except Status Reader :=
  if p.header.packetLen < p.header.dataLen then
    Except.error Status.protocolError
  else if seqnoExpected r p.header = false then
    Except.error Status.protocolError
  else
    Except.ok
      { r with header := some p.header
               packetLen := p.header.packetLen
               packetDataReadBytes := 0
               chunkPaddingBytes := p.paddingBytes.length
               state := State.kReadChecksum }

/-- Modelled from the spec: the `ReadChecksum` step: if checksum verification
is enabled and the packet declares checksum bytes, read them into the
transient checksum buffer; otherwise skip with an empty buffer. -/
def stepReadChecksum (r : Reader) (p : Packet) : Reader :=
  if r.options.verify_checksum && !p.checksumBytes.isEmpty then
    { r with checksum := p.checksumBytes, state := State.kReadPadding }
  else
    { r with checksum := [], state := State.kReadPadding }

/-- Modelled from the spec: the `ReadPadding` step consumes and discards the
alignment padding bytes; they are never copied to the caller. -/
def stepReadPadding (r : Reader) : Reader :=
  { r with chunkPaddingBytes := 0, state := State.kReadData }

/-- Modelled from the spec: the `ReadData` step.  On first entry into a
packet's data (no data bytes read yet) with a non-empty checksum buffer, the
recomputed checksums of the packet's data chunks are compared with the bytes
the server declared; a mismatch fails the read with a checksum-verification
error before any byte of the packet is delivered.  Otherwise up to `room`
bytes of the packet's remaining data are copied out, `packet_data_read_bytes_`
advances by that amount and `bytes_to_read_` decreases by it. -/
def stepReadData (algo : ChecksumAlgo) (r : Reader) (p : Packet) (room : Nat) :
    Except Status (List Nat × Reader) :=
  match r.header with
  | none => Except.error Status.logicalMisuseError
  | some h =>
    if r.packetDataReadBytes = 0 ∧ r.checksum ≠ [] ∧
        expectedChecksum algo p.dataBytes ≠ r.checksum then
      Except.error Status.checksumError
    else
      let n := min room (h.dataLen - r.packetDataReadBytes)
      Except.ok ((p.dataBytes.drop r.packetDataReadBytes).take n,
        { r with packetDataReadBytes := r.packetDataReadBytes + n
                 bytesToRead := r.bytesToRead - (n : Int)
                 state := State.kReadData })

/-- Modelled from the spec: the `AckRead` step, entered after consuming the
packet whose last-packet flag is set: it emits exactly one acknowledgement
message back to the server and the session becomes `kFinished`. -/
def stepAckRead (r : Reader) : Reader :=
  { r with acksEmitted := r.acksEmitted + 1, state := State.kFinished }

/-- Modelled from the spec: run the per-packet pipeline from the reader's
current suspend point down to the data step, against the packet `p` at the
head of the stream, with `room` bytes of space left in the caller buffers. -/
def runSteps (algo : ChecksumAlgo) (r : Reader) (p : Packet) (room : Nat) :
    Except Status (List Nat × Reader) :=
  match r.state with
  | State.kReadPacketHeader =>
    match stepReadPacketHeader r p with
    | Except.error e => Except.error e
    | Except.ok r1 => stepReadData algo (stepReadPadding (stepReadChecksum r1 p)) p room
  | State.kReadChecksum => stepReadData algo (stepReadPadding (stepReadChecksum r p)) p room
  | State.kReadPadding => stepReadData algo (stepReadPadding r) p room
  | State.kReadData => stepReadData algo r p room
  | _ => Except.error Status.logicalMisuseError

/-- Modelled from the spec: the engine of one `read_packet` call.  It
advances through as many wire packets as needed to fill the caller buffers:
each completed packet is popped from the stream; consuming the packet whose
last-packet flag is set triggers the acknowledgement and finishes the
session; a packet not yet drained when the buffers are full stays at the
head of the stream with the read position remembered in the reader; an
exhausted stream is a transport error (EOF); any step failure aborts the
session. -/
def readLoop (algo : ChecksumAlgo) :
    List Packet → Reader → Nat → List Nat → Status × List Nat × Reader × List Packet
  | [], r, _, acc => (Status.transportError, acc, { r with state := State.kFinished }, [])
  | p :: rest, r, cap, acc =>
    match runSteps algo r p (cap - acc.length) with
    | Except.error e => (e, acc, { r with state := State.kFinished }, p :: rest)
    | Except.ok (out, r1) =>
      let acc1 := acc ++ out
      match r1.header with
      | none => (Status.logicalMisuseError, acc1, { r1 with state := State.kFinished }, p :: rest)
      | some h =>
        if r1.packetDataReadBytes = h.dataLen then
          if h.lastPacketInBlock then
            (Status.ok, acc1, stepAckRead r1, rest)
          else
            if acc1.length < cap then
              readLoop algo rest { r1 with state := State.kReadPacketHeader } cap acc1
            else
              (Status.ok, acc1, { r1 with state := State.kReadPacketHeader }, rest)
        else
          (Status.ok, acc1, r1, p :: rest)

/-- Modelled from the spec: one `read_packet` / `async_read_packet` call
(the synchronous form wraps the asynchronous one over the same engine).
`input` is the sequence of wire packets available on the stream and `cap`
the total capacity of the caller's buffer sequence; the result carries the
tagged status, the bytes written to the caller's buffers (the returned
`bytes_transferred` is their number), the reader afterwards and the
remaining stream.  Invoking it before a successful `request_block` or after
the session finished is a logical-misuse error. -/
def read_packet (algo : ChecksumAlgo) (r : Reader) (input : List Packet) (cap : Nat) :
    Status × List Nat × Reader × List Packet :=
  if r.state = State.kOpen ∨ r.state = State.kFinished then
    (Status.logicalMisuseError, [], r, input)
  else
    readLoop algo input r cap []

/-- Modelled from the spec: a caller driving a whole read: issue one
`read_packet` call per capacity in `caps` until the session is finished or a
call fails, accumulating all delivered bytes. -/
def driveCalls (algo : ChecksumAlgo) :
    List Nat → Reader → List Packet → List Nat → Status × List Nat × Reader × List Packet
  | [], r, input, acc => (Status.ok, acc, r, input)
  | c :: cs, r, input, acc =>
    if r.state = State.kFinished then
      (Status.ok, acc, r, input)
    else
      match read_packet algo r input c with
      | (Status.ok, out, r1, input1) => driveCalls algo cs r1 input1 (acc ++ out)
      | (e, out, r1, input1) => (e, acc ++ out, r1, input1)

/-- The concatenated data payload of a packet sequence, in order. -/
def allData (ps : List Packet) : List Nat :=
  (ps.map Packet.dataBytes).flatten

/-- The data bytes still to be delivered from the point of view of a reader
suspended against the given remaining stream: mid-packet, the not yet
delivered part of the head packet followed by the data of the rest. -/
def pending (r : Reader) (input : List Packet) : List Nat :=
  match input with
  | [] => []
  | p :: rest =>
    if r.state = State.kReadData then p.dataBytes.drop r.packetDataReadBytes ++ allData rest
    else allData (p :: rest)

/-- Sequence numbers increase by exactly one per packet, starting at `s`. -/
def seqChain : Nat → List Packet → Prop
  | _, [] => True
  | s, p :: rest => p.header.seqno = s ∧ seqChain (s + 1) rest

/-- Exactly the final packet of the sequence carries the last-packet flag. -/
def lastFlags : List Packet → Prop
  | [] => True
  | [p] => p.header.lastPacketInBlock = true
  | p :: rest => p.header.lastPacketInBlock = false ∧ lastFlags rest

/-- A well-formed packet as a correct server sends it: consistent lengths,
a data payload of exactly the declared length, and checksum bytes matching
the recomputed checksums of the data chunks. -/
def packetWF (algo : ChecksumAlgo) (p : Packet) : Prop :=
  p.header.dataLen ≤ p.header.packetLen ∧
  p.dataBytes.length = p.header.dataLen ∧
  p.checksumBytes = expectedChecksum algo p.dataBytes

/-- The seqno obligation on the remaining stream given the last stored
header: with no header yet decoded any starting seqno is accepted, otherwise
the chain continues from the stored seqno plus one. -/
def seqOk (oh : Option PacketHeaderProto) (ps : List Packet) : Prop :=
  match oh, ps with
  | _, [] => True
  | none, p :: _ => seqChain p.header.seqno ps
  | some h, _ => seqChain (h.seqno + 1) ps

/-- A reader suspended consistently against a valid remaining stream: the
stream is a non-empty well-formed tail ending in the last packet, and the
reader is either between packets (awaiting a header) or mid-packet with the
head packet's header stored, the read position strictly inside the data, and
a checksum buffer that is empty or matches the head packet's data. -/
def ValidCont (algo : ChecksumAlgo) (r : Reader) (input : List Packet) : Prop :=
  input ≠ [] ∧ lastFlags input ∧ (∀ p ∈ input, packetWF algo p) ∧
  ((r.state = State.kReadPacketHeader ∧ seqOk r.header input) ∨
   (r.state = State.kReadData ∧ ∃ p rest, input = p :: rest ∧
      r.header = some p.header ∧
      seqChain p.header.seqno input ∧
      r.packetDataReadBytes < p.header.dataLen ∧
      (r.checksum = [] ∨ r.checksum = expectedChecksum algo p.dataBytes)))

/-- A complete valid packet sequence answering a read of `len` bytes with
first seqno `s0`: non-empty, consecutive seqnos, the last-packet flag on
exactly the final packet, every packet well-formed, and data totalling
exactly `len` bytes. -/
def ValidSeq (algo : ChecksumAlgo) (len s0 : Nat) (ps : List Packet) : Prop :=
  ps ≠ [] ∧ seqChain s0 ps ∧ lastFlags ps ∧ (∀ p ∈ ps, packetWF algo p) ∧
  (ps.map fun p => p.header.dataLen).sum = len

/-- The reader state after a successful `request_block` for `len` bytes. -/
def readerReady (options : BlockReaderOptions) (len : Nat) : Reader :=
  (request_block (mkRemoteBlockReader options) len [HandshakeResponse.success]).2.1

/-- Replace a packet's padding bytes (used to state that delivery is
independent of the padding contents). -/
def setPadding (g : Packet → List Nat) (p : Packet) : Packet :=
  { p with paddingBytes := g p }

/-- A concrete checksum algorithm for test scenarios: chunks of two bytes,
one checksum byte per chunk equal to the sum of the chunk. -/
def algoW : ChecksumAlgo :=
  { chunkSize := 2, sumBytes := fun l => [l.sum] }

/-- Header of the first test packet: 3 data bytes, seqno 5, not last. -/
def hdrW1 : PacketHeaderProto :=
  { packetLen := 8, offsetInBlock := 0, seqno := 5, lastPacketInBlock := false, dataLen := 3 }

/-- First test packet: data `[10, 11, 12]`, correct checksums `[21, 12]`,
two padding bytes. -/
def pktW1 : Packet :=
  { header := hdrW1, checksumBytes := [21, 12], paddingBytes := [9, 9], dataBytes := [10, 11, 12] }

/-- Header of the second test packet: 2 data bytes, seqno 6, last packet. -/
def hdrW2 : PacketHeaderProto :=
  { packetLen := 7, offsetInBlock := 3, seqno := 6, lastPacketInBlock := true, dataLen := 2 }

/-- Second test packet: data `[13, 14]`, correct checksum `[27]`. -/
def pktW2 : Packet :=
  { header := hdrW2, checksumBytes := [27], paddingBytes := [], dataBytes := [13, 14] }

/-- A reader mid-session that has already consumed a packet with header
`hdrW1` (so the expected next seqno is 6). -/
def rdrW : Reader :=
  { readerReady mkBlockReaderOptions 5 with header := some hdrW1 }

/-- A zero-length final packet: no checksum, no padding, no data, with the
last-packet flag set. -/
def pktTermW : Packet :=
  { header := { packetLen := 4, offsetInBlock := 5, seqno := 6,
                lastPacketInBlock := true, dataLen := 0 }
    checksumBytes := [], paddingBytes := [], dataBytes := [] }

/-- A corrupted variant of the first test packet: one checksum byte changed
(so the declared checksums no longer match the data), marked last. -/
def pktCorW : Packet :=
  { pktW1 with header := { hdrW1 with lastPacketInBlock := true }
               checksumBytes := [21, 13] }

/-! Basic unfolding lemmas. -/

theorem allData_nil : allData [] = [] := rfl

theorem allData_cons (p : Packet) (ps : List Packet) :
    allData (p :: ps) = p.dataBytes ++ allData ps := by
  simp [allData]

theorem pending_of_header_state (r : Reader) (input : List Packet)
    (h : r.state = State.kReadPacketHeader) : pending r input = allData input := by
  cases input with
  | nil => simp [pending, allData]
  | cons p rest => simp [pending, h]

theorem pending_of_data_state (r : Reader) (p : Packet) (rest : List Packet)
    (h : r.state = State.kReadData) :
    pending r (p :: rest) = p.dataBytes.drop r.packetDataReadBytes ++ allData rest := by
  simp [pending, h]

theorem lastFlags_split (p : Packet) (rest : List Packet) (h : lastFlags (p :: rest)) :
    (rest = [] ∧ p.header.lastPacketInBlock = true) ∨
    (rest ≠ [] ∧ p.header.lastPacketInBlock = false ∧ lastFlags rest) := by
  cases rest with
  | nil => exact Or.inl ⟨rfl, h⟩
  | cons q qs => exact Or.inr ⟨by simp, h.1, h.2⟩

theorem seqChain_shift (s : Nat) (p : Packet) (rest : List Packet)
    (h : seqChain s (p :: rest)) : seqChain (p.header.seqno + 1) rest := by
  have h1 : p.header.seqno = s := h.1
  rw [h1]
  exact h.2

/-! Characterisation of the per-packet pipeline. -/

theorem runSteps_of_header (algo : ChecksumAlgo) (r : Reader) (p : Packet) (room : Nat)
    (hs : r.state = State.kReadPacketHeader)
    (hlen : p.header.dataLen ≤ p.header.packetLen)
    (hseq : seqnoExpected r p.header = true)
    (hcs : p.checksumBytes = expectedChecksum algo p.dataBytes) :
    runSteps algo r p room =
      Except.ok (p.dataBytes.take (min room p.header.dataLen),
        { r with header := some p.header
                 packetLen := p.header.packetLen
                 packetDataReadBytes := min room p.header.dataLen
                 chunkPaddingBytes := 0
                 checksum := if r.options.verify_checksum && !p.checksumBytes.isEmpty
                             then p.checksumBytes else []
                 bytesToRead := r.bytesToRead - ((min room p.header.dataLen : Nat) : Int)
                 state := State.kReadData }) := by
  by_cases hb1 : r.options.verify_checksum = true
  · by_cases hb2 : p.checksumBytes = []
    · have hce : expectedChecksum algo p.dataBytes = [] := hcs.symm.trans hb2
      simp [runSteps, hs, stepReadPacketHeader, Nat.not_lt.mpr hlen, hseq,
            stepReadChecksum, stepReadPadding, stepReadData, hb1, hb2, hce]
    · have hb2e : ¬expectedChecksum algo p.dataBytes = [] := hcs ▸ hb2
      simp [runSteps, hs, stepReadPacketHeader, Nat.not_lt.mpr hlen, hseq,
            stepReadChecksum, stepReadPadding, stepReadData, hb1, hb2e, hcs]
  · rw [Bool.not_eq_true] at hb1
    simp [runSteps, hs, stepReadPacketHeader, Nat.not_lt.mpr hlen, hseq,
          stepReadChecksum, stepReadPadding, stepReadData, hb1]

theorem runSteps_of_data (algo : ChecksumAlgo) (r : Reader) (p : Packet) (room : Nat)
    (h : PacketHeaderProto)
    (hs : r.state = State.kReadData) (hh : r.header = some h)
    (hno : ¬(r.packetDataReadBytes = 0 ∧ r.checksum ≠ [] ∧
             expectedChecksum algo p.dataBytes ≠ r.checksum)) :
    runSteps algo r p room =
      Except.ok ((p.dataBytes.drop r.packetDataReadBytes).take
          (min room (h.dataLen - r.packetDataReadBytes)),
        { r with packetDataReadBytes :=
                   r.packetDataReadBytes + min room (h.dataLen - r.packetDataReadBytes)
                 bytesToRead := r.bytesToRead -
                   ((min room (h.dataLen - r.packetDataReadBytes) : Nat) : Int)
                 state := State.kReadData }) := by
  simp [runSteps, hs, stepReadData, hh, hno]

theorem runSteps_reject_len (algo : ChecksumAlgo) (r : Reader) (p : Packet) (room : Nat)
    (hs : r.state = State.kReadPacketHeader)
    (hbad : p.header.packetLen < p.header.dataLen) :
    runSteps algo r p room = Except.error Status.protocolError := by
  simp [runSteps, hs, stepReadPacketHeader, hbad]

theorem runSteps_reject_seqno (algo : ChecksumAlgo) (r : Reader) (p : Packet) (room : Nat)
    (hs : r.state = State.kReadPacketHeader)
    (hbad : seqnoExpected r p.header = false) :
    runSteps algo r p room = Except.error Status.protocolError := by
  rcases Nat.lt_or_ge p.header.packetLen p.header.dataLen with h | h
  · simp [runSteps, hs, stepReadPacketHeader, h]
  · simp [runSteps, hs, stepReadPacketHeader, Nat.not_lt.mpr h, hbad]

theorem runSteps_reject_checksum (algo : ChecksumAlgo) (r : Reader) (p : Packet) (room : Nat)
    (hs : r.state = State.kReadPacketHeader)
    (hlen : p.header.dataLen ≤ p.header.packetLen)
    (hseq : seqnoExpected r p.header = true)
    (hv : r.options.verify_checksum = true)
    (hne : p.checksumBytes ≠ [])
    (hbad : expectedChecksum algo p.dataBytes ≠ p.checksumBytes) :
    runSteps algo r p room = Except.error Status.checksumError := by
  simp [runSteps, hs, stepReadPacketHeader, Nat.not_lt.mpr hlen, hseq,
        stepReadChecksum, stepReadPadding, stepReadData, hv, hne, hbad]

theorem read_packet_finished_misuse (algo : ChecksumAlgo) (r : Reader)
    (input : List Packet) (cap : Nat) (h : r.state = State.kFinished) :
    read_packet algo r input cap = (Status.logicalMisuseError, [], r, input) := by
  simp [read_packet, h]

/-- Claim C9: a default-constructed `BlockReaderOptions` has `verify_checksum`
equal to `true`: checksum verification is enabled unless the caller disables
it explicitly. -/
theorem defaultOptions_verify_checksum : mkBlockReaderOptions.verify_checksum = true := rfl

/-- Claim C10: a default-constructed `BlockReaderOptions` requests no
encryption (`kNone`) and a default cache strategy: both hint flags
unspecified and false, and a zero read-ahead. -/
theorem defaultOptions_cache_and_encryption :
    mkBlockReaderOptions.encryption_scheme = EncryptionScheme.kNone ∧
    mkBlockReaderOptions.cache_strategy.drop_behind_specified = false ∧
    mkBlockReaderOptions.cache_strategy.drop_behind = false ∧
    mkBlockReaderOptions.cache_strategy.read_ahead_specified = false ∧
    mkBlockReaderOptions.cache_strategy.read_ahead = 0 :=
  ⟨rfl, rfl, rfl, rfl, rfl⟩

/-- Claim C5, counterexample: the `State` enumeration of the reader has six
members, not the seven the claim lists (there is no `AckRead` state in the
enum; `AckRead` exists only as a continuation struct). -/
theorem state_enum_counterexample :
    Fintype.card State = 6 ∧ Fintype.card State ≠ 7 := by
  constructor
  · decide
  · decide

/-- Claim C5, amended: the `State` enum has exactly the six states `kOpen`,
`kReadPacketHeader`, `kReadChecksum`, `kReadPadding`, `kReadData`,
`kFinished`; a freshly constructed reader starts in `kOpen`; the processing
pipeline advances `ReadPacketHeader → ReadChecksum → ReadPadding → ReadData`,
and after the last packet the acknowledgement step moves the session to
`kFinished` (the acknowledgement is a processing step, not an enum state). -/
theorem state_enum_amended (options : BlockReaderOptions) :
    Fintype.card State = 6 ∧
    (mkRemoteBlockReader options).state = State.kOpen ∧
    (∀ r p r1, stepReadPacketHeader r p = Except.ok r1 → r1.state = State.kReadChecksum) ∧
    (∀ r p, (stepReadChecksum r p).state = State.kReadPadding) ∧
    (∀ r, (stepReadPadding r).state = State.kReadData) ∧
    (∀ algo r p room out r1, stepReadData algo r p room = Except.ok (out, r1) →
      r1.state = State.kReadData) ∧
    (∀ r, (stepAckRead r).state = State.kFinished) := by
  refine ⟨by decide, rfl, ?_, fun r p => ?_, fun r => rfl, ?_, fun r => rfl⟩
  · intro r p r1 h
    simp only [stepReadPacketHeader] at h
    split at h
    · exact absurd h (by simp)
    · split at h
      · exact absurd h (by simp)
      · cases h with
        | refl => rfl
  · simp only [stepReadChecksum]
    split <;> rfl
  · intro algo r p room out r1 h
    simp only [stepReadData] at h
    split at h
    · exact absurd h (by simp)
    · split at h
      · exact absurd h (by simp)
      · cases h with
        | refl => rfl

/-- Claim C5, witness: the amended theorem applied at the default options and
at a concrete reader. -/
theorem state_enum_amended_witness :
    (mkRemoteBlockReader mkBlockReaderOptions).state = State.kOpen ∧
    (stepReadPadding (mkRemoteBlockReader mkBlockReaderOptions)).state = State.kReadData :=
  ⟨(state_enum_amended mkBlockReaderOptions).2.1,
   (state_enum_amended mkBlockReaderOptions).2.2.2.2.1 (mkRemoteBlockReader mkBlockReaderOptions)⟩

/-- Claim C8: a `request_block` invocation consumes exactly one handshake
response and surfaces every failing outcome as the corresponding tagged
status value (never consuming further responses, i.e. no retry at this
layer); the status is `ok` exactly on a successful handshake, and on failure
the reader is left unchanged. -/
theorem request_block_failure_tagged (r : Reader) (len : Nat)
    (resp : HandshakeResponse) (rest : List HandshakeResponse) :
    (request_block r len (resp :: rest)).2.2 = rest ∧
    ((request_block r len (resp :: rest)).1 = Status.ok ↔ resp = HandshakeResponse.success) ∧
    (resp = HandshakeResponse.transportFailure →
      request_block r len (resp :: rest) = (Status.transportError, r, rest)) ∧
    (resp = HandshakeResponse.malformedResponse →
      request_block r len (resp :: rest) = (Status.protocolError, r, rest)) ∧
    (resp = HandshakeResponse.serverErrorStatus →
      request_block r len (resp :: rest) = (Status.serverError, r, rest)) ∧
    (resp ≠ HandshakeResponse.success → (request_block r len (resp :: rest)).2.1 = r) := by
  cases resp <;> simp [request_block]

/-- Claim C8, witness: a transport failure during the handshake is surfaced
as the transport-error status, the reader is unchanged and the remaining
response stream is untouched. -/
theorem request_block_failure_tagged_witness :
    request_block (mkRemoteBlockReader mkBlockReaderOptions) 5
        [HandshakeResponse.transportFailure, HandshakeResponse.success] =
      (Status.transportError, mkRemoteBlockReader mkBlockReaderOptions,
       [HandshakeResponse.success]) :=
  (request_block_failure_tagged (mkRemoteBlockReader mkBlockReaderOptions) 5
    HandshakeResponse.transportFailure [HandshakeResponse.success]).2.2.1 rfl

/-- Claim C2: in the `ReadPacketHeader` step, a header whose declared data
length exceeds its declared packet length, or whose seqno is not the
previous packet's seqno plus one, fails the read with a protocol error and
delivers nothing; in particular a packet declaring seqno `k + 2` right after
one declaring seqno `k` is rejected. -/
theorem header_validation_rejects (algo : ChecksumAlgo) (r : Reader) (p : Packet)
    (rest : List Packet) (cap : Nat) (hs : r.state = State.kReadPacketHeader) :
    (p.header.packetLen < p.header.dataLen →
      read_packet algo r (p :: rest) cap =
        (Status.protocolError, [], { r with state := State.kFinished }, p :: rest)) ∧
    (∀ prev, r.header = some prev → p.header.seqno ≠ prev.seqno + 1 →
      read_packet algo r (p :: rest) cap =
        (Status.protocolError, [], { r with state := State.kFinished }, p :: rest)) := by
  constructor
  · intro hbad
    have h1 := runSteps_reject_len algo r p cap hs hbad
    simp [read_packet, hs, readLoop, h1]
  · intro prev hh hne
    have hbad : seqnoExpected r p.header = false := by
      simp [seqnoExpected, hh]
      exact hne
    have h1 := runSteps_reject_seqno algo r p cap hs hbad
    simp [read_packet, hs, readLoop, h1]

/-- Claim C2, witness: after a packet with seqno 5, a packet declaring
seqno 7 (that is, k + 2 after k = 5) is rejected as a protocol error. -/
theorem header_validation_rejects_witness :
    read_packet algoW rdrW [{ pktW2 with header := { hdrW2 with seqno := 7 } }] 10 =
      (Status.protocolError, [], { rdrW with state := State.kFinished },
       [{ pktW2 with header := { hdrW2 with seqno := 7 } }]) :=
  (header_validation_rejects algoW rdrW { pktW2 with header := { hdrW2 with seqno := 7 } }
    [] 10 rfl).2 hdrW1 rfl (by decide)

/-- Claim C7: a zero-length final packet (no checksum bytes, no padding, no
data) whose last-packet flag is set is accepted as a valid terminator: the
call succeeds with zero bytes delivered, exactly one acknowledgement is
emitted, the session moves to `kFinished`, and any subsequent packet read on
the session is a logical-misuse error that changes nothing. -/
theorem zero_length_terminator (algo : ChecksumAlgo) (r : Reader)
    (hdr : PacketHeaderProto) (cap : Nat)
    (hs : r.state = State.kReadPacketHeader)
    (hd : hdr.dataLen = 0) (hl : hdr.lastPacketInBlock = true)
    (hseq : seqnoExpected r hdr = true) :
    ∃ r1,
      read_packet algo r
          [{ header := hdr, checksumBytes := [], paddingBytes := [], dataBytes := [] }] cap =
        (Status.ok, [], r1, []) ∧
      r1.state = State.kFinished ∧
      r1.acksEmitted = r.acksEmitted + 1 ∧
      (∀ input2 cap2, read_packet algo r1 input2 cap2 =
        (Status.logicalMisuseError, [], r1, input2)) := by
  have hlen : ({ header := hdr, checksumBytes := [], paddingBytes := [],
                 dataBytes := [] } : Packet).header.dataLen ≤ hdr.packetLen := by
    simp [hd]
  have hcs : ({ header := hdr, checksumBytes := [], paddingBytes := [],
                dataBytes := [] } : Packet).checksumBytes =
      expectedChecksum algo ([] : List Nat) := rfl
  have hrun := runSteps_of_header algo r
    { header := hdr, checksumBytes := [], paddingBytes := [], dataBytes := [] }
    cap hs hlen hseq hcs
  refine ⟨{ r with header := some hdr
                   packetLen := hdr.packetLen
                   packetDataReadBytes := 0
                   chunkPaddingBytes := 0
                   checksum := []
                   bytesToRead := r.bytesToRead
                   state := State.kFinished
                   acksEmitted := r.acksEmitted + 1 }, ?_, rfl, rfl, ?_⟩
  · have hnotof : ¬(r.state = State.kOpen ∨ r.state = State.kFinished) := by
      rw [hs]; simp
    rw [read_packet, if_neg hnotof]
    simp only [readLoop, List.length_nil, Nat.sub_zero, hrun]
    simp [hd, hl, stepAckRead]
  · intro input2 cap2
    exact read_packet_finished_misuse algo _ input2 cap2 rfl

/-- Claim C7, witness: the terminator theorem at a concrete mid-session
reader expecting seqno 6 and the concrete zero-length final packet. -/
theorem zero_length_terminator_witness :
    ∃ r1,
      read_packet algoW rdrW
          [{ header := pktTermW.header, checksumBytes := [], paddingBytes := [],
             dataBytes := [] }] 4 =
        (Status.ok, [], r1, []) ∧
      r1.state = State.kFinished ∧
      r1.acksEmitted = rdrW.acksEmitted + 1 ∧
      (∀ input2 cap2, read_packet algoW r1 input2 cap2 =
        (Status.logicalMisuseError, [], r1, input2)) :=
  zero_length_terminator algoW rdrW pktTermW.header 4 rfl rfl rfl (by decide)

/-- Claim C3: a packet whose declared checksum bytes differ from the
checksums recomputed over its data (with verification enabled) fails the
read with a checksum-verification error: nothing beyond the previously
accumulated bytes is delivered (zero bytes from the offending packet), the
session is aborted, and every subsequent packet read on the aborted session
is a logical-misuse error (the failure is not retried at this layer). -/
theorem checksum_mismatch_rejects (algo : ChecksumAlgo) (r : Reader) (p : Packet)
    (rest : List Packet) (cap : Nat) (acc : List Nat)
    (hs : r.state = State.kReadPacketHeader)
    (hv : r.options.verify_checksum = true)
    (hne : p.checksumBytes ≠ [])
    (hbad : expectedChecksum algo p.dataBytes ≠ p.checksumBytes)
    (hlen : p.header.dataLen ≤ p.header.packetLen)
    (hseq : seqnoExpected r p.header = true) :
    readLoop algo (p :: rest) r cap acc =
      (Status.checksumError, acc, { r with state := State.kFinished }, p :: rest) ∧
    read_packet algo r (p :: rest) cap =
      (Status.checksumError, [], { r with state := State.kFinished }, p :: rest) ∧
    (∀ input2 cap2, read_packet algo { r with state := State.kFinished } input2 cap2 =
      (Status.logicalMisuseError, [], { r with state := State.kFinished }, input2)) := by
  refine ⟨?_, ?_, ?_⟩
  · have h1 := runSteps_reject_checksum algo r p (cap - acc.length) hs hlen hseq hv hne hbad
    simp [readLoop, h1]
  · have h1 := runSteps_reject_checksum algo r p cap hs hlen hseq hv hne hbad
    simp [read_packet, hs, readLoop, h1]
  · intro input2 cap2
    exact read_packet_finished_misuse algo _ input2 cap2 rfl

/-- Claim C3, witness: the corrupted packet (one checksum byte off) is
rejected with a checksum error and zero delivered bytes by a fresh session
requesting 3 bytes. -/
theorem checksum_mismatch_rejects_witness :
    read_packet algoW (readerReady mkBlockReaderOptions 3) [pktCorW] 10 =
      (Status.checksumError, [],
       { readerReady mkBlockReaderOptions 3 with state := State.kFinished }, [pktCorW]) :=
  (checksum_mismatch_rejects algoW (readerReady mkBlockReaderOptions 3) pktCorW [] 10 []
    rfl rfl (by decide) (by decide) (by decide) rfl).2.1

theorem setPadding_header (g : Packet → List Nat) (p : Packet) :
    (setPadding g p).header = p.header := rfl

theorem setPadding_paddingBytes (g : Packet → List Nat) (p : Packet) :
    (setPadding g p).paddingBytes = g p := rfl

theorem setPadding_data_step (algo : ChecksumAlgo) (g : Packet → List Nat)
    (r2 : Reader) (p : Packet) (room : Nat) :
    stepReadData algo r2 (setPadding g p) room = stepReadData algo r2 p room := rfl

theorem setPadding_checksum_step (g : Packet → List Nat) (r2 : Reader) (p : Packet) :
    stepReadChecksum r2 (setPadding g p) = stepReadChecksum r2 p := rfl

/-- The checksum, padding and data steps together ignore the pending padding
counter: it is cleared by `ReadPadding` before the data step looks at the
session state. -/
theorem tailSteps_cpb (algo : ChecksumAlgo) (r1 : Reader) (n : Nat)
    (p : Packet) (room : Nat) :
    stepReadData algo
        (stepReadPadding (stepReadChecksum { r1 with chunkPaddingBytes := n } p)) p room =
      stepReadData algo (stepReadPadding (stepReadChecksum r1 p)) p room := by
  simp only [stepReadChecksum]
  split_ifs <;> rfl

/-- The header step on a packet with replaced padding differs from the
original only in the pending padding counter it stores. -/
theorem setPadding_header_step (g : Packet → List Nat) (r : Reader) (p : Packet) :
    stepReadPacketHeader r (setPadding g p) =
      (stepReadPacketHeader r p).map
        (fun r1 => { r1 with chunkPaddingBytes := (g p).length }) := by
  simp only [stepReadPacketHeader, setPadding_header, setPadding_paddingBytes]
  split_ifs <;> rfl

/-- Replacing a packet's padding bytes does not change what the pipeline
does: padding is only counted into the transient `chunk_padding_bytes_`
counter, which the `ReadPadding` step clears before any data byte is read. -/
theorem runSteps_setPadding (algo : ChecksumAlgo) (g : Packet → List Nat)
    (r : Reader) (p : Packet) (room : Nat) :
    runSteps algo r (setPadding g p) room = runSteps algo r p room := by
  cases hst : r.state
  case kOpen => simp [runSteps, hst]
  case kFinished => simp [runSteps, hst]
  case kReadChecksum =>
    simp only [runSteps, hst, setPadding_data_step, setPadding_checksum_step]
  case kReadPadding =>
    simp only [runSteps, hst, setPadding_data_step]
  case kReadData =>
    simp only [runSteps, hst, setPadding_data_step]
  case kReadPacketHeader =>
    simp only [runSteps, hst, setPadding_data_step, setPadding_checksum_step,
               setPadding_header_step]
    cases hsh : stepReadPacketHeader r p with
    | error e => simp [Except.map]
    | ok r1 =>
      simp only [Except.map]
      exact tailSteps_cpb algo r1 ((g p).length) p room

/-- The whole read engine is insensitive to padding contents: running it on
a stream whose packets carry arbitrary replacement padding gives the same
status, the same delivered bytes and the same reader, with the remaining
stream related by the same padding replacement. -/
theorem readLoop_setPadding (algo : ChecksumAlgo) (g : Packet → List Nat) :
    ∀ (input : List Packet) (r : Reader) (cap : Nat) (acc : List Nat),
    readLoop algo (input.map (setPadding g)) r cap acc =
      ((readLoop algo input r cap acc).1, (readLoop algo input r cap acc).2.1,
       (readLoop algo input r cap acc).2.2.1,
       (readLoop algo input r cap acc).2.2.2.map (setPadding g))
  | [], r, cap, acc => by simp [readLoop]
  | p :: rest, r, cap, acc => by
    rw [List.map_cons]
    simp only [readLoop, runSteps_setPadding]
    cases hres : runSteps algo r p (cap - acc.length) with
    | error e => simp
    | ok pair =>
      obtain ⟨out, r1⟩ := pair
      cases hh : r1.header with
      | none => simp [hh]
      | some h =>
        by_cases hdr : r1.packetDataReadBytes = h.dataLen
        · by_cases hlast : h.lastPacketInBlock = true
          · simp [hh, hdr, hlast]
          · by_cases hfill : acc.length + out.length < cap
            · simp [hh, hdr, hlast, hfill]
              exact readLoop_setPadding algo g rest _ cap (acc ++ out)
            · simp [hh, hdr, hlast, hfill]
        · simp [hh, hdr]

/-- Claim C4: padding bytes are consumed and discarded during the
`ReadPadding` step (the pending padding counter is cleared before the data
state is entered), and they are never copied into caller buffers nor counted
in the delivered byte total: a `read_packet` call on a stream with arbitrary
replacement padding returns the same status, the same delivered bytes and
the same reader. -/
theorem padding_never_delivered :
    (∀ r, (stepReadPadding r).chunkPaddingBytes = 0 ∧
      (stepReadPadding r).state = State.kReadData) ∧
    (∀ (algo : ChecksumAlgo) (g : Packet → List Nat) (r : Reader)
        (input : List Packet) (cap : Nat),
      (read_packet algo r (input.map (setPadding g)) cap).1 =
        (read_packet algo r input cap).1 ∧
      (read_packet algo r (input.map (setPadding g)) cap).2.1 =
        (read_packet algo r input cap).2.1 ∧
      (read_packet algo r (input.map (setPadding g)) cap).2.2.1 =
        (read_packet algo r input cap).2.2.1) := by
  refine ⟨fun r => ⟨rfl, rfl⟩, ?_⟩
  intro algo g r input cap
  by_cases h : r.state = State.kOpen ∨ r.state = State.kFinished
  · simp [read_packet, h]
  · simp [read_packet, h, readLoop_setPadding]

theorem seqOk_some (h : PacketHeaderProto) (ps : List Packet)
    (hc : seqChain (h.seqno + 1) ps) : seqOk (some h) ps := by
  cases ps with
  | nil => trivial
  | cons q qs => exact hc

theorem seqOk_of_chain (s : Nat) (ps : List Packet) (hc : seqChain s ps) :
    seqOk none ps := by
  cases ps with
  | nil => trivial
  | cons q qs => exact ⟨rfl, by rw [hc.1]; exact hc.2⟩

theorem allData_length (algo : ChecksumAlgo) (ps : List Packet)
    (h : ∀ p ∈ ps, packetWF algo p) :
    (allData ps).length = (ps.map fun p => p.header.dataLen).sum := by
  induction ps with
  | nil => simp [allData]
  | cons p rest ih =>
    have hp := (h p (List.mem_cons_self p rest)).2.1
    have ih2 := ih fun q hq => h q (List.mem_cons_of_mem p hq)
    simp [allData_cons, ih2, hp]

/-- Unfold `pending` for a reader literal in the header state. -/
theorem pending_mk_header (ro : BlockReaderOptions) (a b c : Nat) (bt : Int)
    (cs : List Nat) (oh : Option PacketHeaderProto) (k : Nat) (input : List Packet) :
    pending ⟨State.kReadPacketHeader, ro, a, b, c, bt, cs, oh, k⟩ input = allData input :=
  pending_of_header_state _ _ rfl

/-- Unfold `pending` for a reader literal in the data state. -/
theorem pending_mk_data (ro : BlockReaderOptions) (a b c : Nat) (bt : Int)
    (cs : List Nat) (oh : Option PacketHeaderProto) (k : Nat) (p : Packet)
    (rest : List Packet) :
    pending ⟨State.kReadData, ro, a, b, c, bt, cs, oh, k⟩ (p :: rest) =
      p.dataBytes.drop b ++ allData rest :=
  pending_of_data_state _ _ _ rfl

/-- Core step of the delivery proof: one packet of a valid remaining stream
is processed from read position `d`; the call either finishes the session,
fills the buffers exactly, or hands over to the induction hypothesis `IH`
for the rest of the stream. -/
theorem master_continue (algo : ChecksumAlgo) (cap : Nat) (p : Packet)
    (rest : List Packet) (r r1 : Reader) (acc : List Nat) (d : Nat)
    (IH : ∀ (r2 : Reader) (acc2 : List Nat), ValidCont algo r2 rest → acc2.length ≤ cap →
      ∃ r3 input3,
        readLoop algo rest r2 cap acc2 =
          (Status.ok, acc2 ++ (pending r2 rest).take (cap - acc2.length), r3, input3) ∧
        ((r3.state = State.kFinished ∧ input3 = [] ∧
            (pending r2 rest).length ≤ cap - acc2.length) ∨
         (ValidCont algo r3 input3 ∧
            (acc2 ++ (pending r2 rest).take (cap - acc2.length)).length = cap ∧
            pending r3 input3 = (pending r2 rest).drop (cap - acc2.length))))
    (hacc : acc.length ≤ cap)
    (hlf : lastFlags (p :: rest))
    (hwf : ∀ q ∈ p :: rest, packetWF algo q)
    (hchainP : seqChain p.header.seqno (p :: rest))
    (hd : d ≤ p.header.dataLen)
    (hrun : runSteps algo r p (cap - acc.length) =
      Except.ok ((p.dataBytes.drop d).take (min (cap - acc.length) (p.header.dataLen - d)),
        r1))
    (hh1 : r1.header = some p.header)
    (hst1 : r1.state = State.kReadData)
    (hpd1 : r1.packetDataReadBytes = d + min (cap - acc.length) (p.header.dataLen - d))
    (hcs1 : r1.checksum = [] ∨ r1.checksum = expectedChecksum algo p.dataBytes)
    (hpend : pending r (p :: rest) = p.dataBytes.drop d ++ allData rest) :
    ∃ r2 input1,
      readLoop algo (p :: rest) r cap acc =
        (Status.ok, acc ++ (pending r (p :: rest)).take (cap - acc.length), r2, input1) ∧
      ((r2.state = State.kFinished ∧ input1 = [] ∧
          (pending r (p :: rest)).length ≤ cap - acc.length) ∨
       (ValidCont algo r2 input1 ∧
          (acc ++ (pending r (p :: rest)).take (cap - acc.length)).length = cap ∧
          pending r2 input1 = (pending r (p :: rest)).drop (cap - acc.length))) := by
  obtain ⟨hw1, hw2, hw3⟩ := hwf p (List.mem_cons_self p rest)
  have hlen_drop : (p.dataBytes.drop d).length = p.header.dataLen - d := by
    rw [List.length_drop, hw2]
  have hminr := Nat.min_le_right (cap - acc.length) (p.header.dataLen - d)
  have hminl := Nat.min_le_left (cap - acc.length) (p.header.dataLen - d)
  have houtlen :
      ((p.dataBytes.drop d).take (min (cap - acc.length) (p.header.dataLen - d))).length =
        min (cap - acc.length) (p.header.dataLen - d) := by
    rw [List.length_take, hlen_drop]
    exact Nat.min_eq_left hminr
  obtain ⟨rs1, ro1, rpl1, rpd1, rcpb1, rbtr1, rcs1, rh1, rack1⟩ := r1
  dsimp only at hh1 hst1 hpd1 hcs1
  subst hh1
  subst hst1
  subst hpd1
  have hacc1len :
      (acc ++ (p.dataBytes.drop d).take
        (min (cap - acc.length) (p.header.dataLen - d))).length =
      acc.length + min (cap - acc.length) (p.header.dataLen - d) := by
    rw [List.length_append, houtlen]
  simp only [readLoop]
  rw [hrun]
  dsimp only
  by_cases hdrn : d + min (cap - acc.length) (p.header.dataLen - d) = p.header.dataLen
  · rw [if_pos hdrn]
    have hn : min (cap - acc.length) (p.header.dataLen - d) = p.header.dataLen - d := by
      omega
    have hroomge : p.header.dataLen - d ≤ cap - acc.length := by omega
    have hout : (p.dataBytes.drop d).take
        (min (cap - acc.length) (p.header.dataLen - d)) = p.dataBytes.drop d := by
      rw [hn]
      exact List.take_of_length_le (le_of_eq hlen_drop)
    by_cases hlast : p.header.lastPacketInBlock = true
    · rw [if_pos hlast]
      rcases lastFlags_split p rest hlf with ⟨hrest, -⟩ | ⟨-, hfl, -⟩
      · subst hrest
        refine ⟨stepAckRead ⟨State.kReadData, ro1, rpl1,
            d + min (cap - acc.length) (p.header.dataLen - d), rcpb1, rbtr1, rcs1,
            some p.header, rack1⟩, [], ?_, ?_⟩
        · rw [hpend, hout, allData_nil, List.append_nil,
            List.take_of_length_le (show (List.drop d p.dataBytes).length ≤ cap - acc.length by rw [hlen_drop]; exact hroomge)]
        · refine Or.inl ⟨rfl, rfl, ?_⟩
          rw [hpend, allData_nil, List.append_nil, hlen_drop]
          exact hroomge
      · simp [hfl] at hlast
    · rw [if_neg hlast]
      rcases lastFlags_split p rest hlf with ⟨-, hfl⟩ | ⟨hrne, -, hlfrest⟩
      · exact absurd hfl hlast
      · have hchain2 := seqChain_shift _ p rest hchainP
        have hv2 : ValidCont algo
            ⟨State.kReadPacketHeader, ro1, rpl1,
              d + min (cap - acc.length) (p.header.dataLen - d), rcpb1, rbtr1, rcs1,
              some p.header, rack1⟩ rest :=
          ⟨hrne, hlfrest, fun q hq => hwf q (List.mem_cons_of_mem p hq),
            Or.inl ⟨rfl, seqOk_some p.header rest hchain2⟩⟩
        by_cases hfill : (acc ++ (p.dataBytes.drop d).take
            (min (cap - acc.length) (p.header.dataLen - d))).length < cap
        · rw [if_pos hfill]
          obtain ⟨r3, input3, heq3, hdisj3⟩ := IH _ _ hv2 (le_of_lt hfill)
          have harith : cap - (acc ++ (p.dataBytes.drop d).take
              (min (cap - acc.length) (p.header.dataLen - d))).length =
              cap - acc.length - (p.header.dataLen - d) := by
            rw [hacc1len]
            omega
          have htake : (pending r (p :: rest)).take (cap - acc.length) =
              p.dataBytes.drop d ++
                (allData rest).take (cap - acc.length - (p.header.dataLen - d)) := by
            rw [hpend, List.take_append_eq_append_take,
              List.take_of_length_le (show (List.drop d p.dataBytes).length ≤ cap - acc.length by rw [hlen_drop]; exact hroomge), hlen_drop]
          refine ⟨r3, input3, ?_, ?_⟩
          · rw [heq3, pending_mk_header, harith, htake, hout, List.append_assoc]
          · rcases hdisj3 with ⟨hf3, hi3, hlen3⟩ | ⟨hv3, hlen3, hpend3⟩
            · refine Or.inl ⟨hf3, hi3, ?_⟩
              rw [pending_mk_header, harith] at hlen3
              rw [hpend, List.length_append, hlen_drop]
              omega
            · refine Or.inr ⟨hv3, ?_, ?_⟩
              · rw [pending_mk_header, harith] at hlen3
                rw [htake]
                simp only [List.length_append, houtlen, List.length_take,
                  hlen_drop] at hlen3 ⊢
                omega
              · rw [hpend3, pending_mk_header, harith, hpend,
                  List.drop_append_eq_append_drop,
                  List.drop_of_length_le (show (List.drop d p.dataBytes).length ≤ cap - acc.length by rw [hlen_drop]; exact hroomge),
                  hlen_drop, List.nil_append]
        · rw [if_neg hfill]
          have hroomeq : cap - acc.length = p.header.dataLen - d := by
            rw [hacc1len] at hfill
            omega
          have hz : cap - acc.length - (p.header.dataLen - d) = 0 := by omega
          refine ⟨⟨State.kReadPacketHeader, ro1, rpl1,
            d + min (cap - acc.length) (p.header.dataLen - d), rcpb1, rbtr1, rcs1,
            some p.header, rack1⟩, rest, ?_, ?_⟩
          · rw [hpend, List.take_append_eq_append_take, hlen_drop, hz,
              List.take_zero, List.append_nil,
              List.take_of_length_le (show (List.drop d p.dataBytes).length ≤ cap - acc.length by rw [hlen_drop]; exact hroomge), hout]
          · refine Or.inr ⟨hv2, ?_, ?_⟩
            · rw [List.length_append, List.length_take, hpend, List.length_append,
                hlen_drop]
              omega
            · rw [pending_mk_header, hpend, List.drop_append_eq_append_drop,
                List.drop_of_length_le (show (List.drop d p.dataBytes).length ≤ cap - acc.length by rw [hlen_drop]; exact hroomge),
                hlen_drop, List.nil_append, hz, List.drop_zero]
  · rw [if_neg hdrn]
    have hn : min (cap - acc.length) (p.header.dataLen - d) = cap - acc.length := by
      omega
    have hz : cap - acc.length - (p.header.dataLen - d) = 0 := by omega
    have htk : (pending r (p :: rest)).take (cap - acc.length) =
        (p.dataBytes.drop d).take (min (cap - acc.length) (p.header.dataLen - d)) := by
      rw [hpend, List.take_append_eq_append_take, hlen_drop, hz, List.take_zero,
        List.append_nil, hn]
    refine ⟨⟨State.kReadData, ro1, rpl1,
            d + min (cap - acc.length) (p.header.dataLen - d), rcpb1, rbtr1, rcs1,
            some p.header, rack1⟩, p :: rest, ?_, ?_⟩
    · rw [htk]
    · refine Or.inr ⟨?_, ?_, ?_⟩
      · refine ⟨by simp, hlf, hwf, Or.inr ⟨rfl, p, rest, rfl, rfl, hchainP, ?_, hcs1⟩⟩
        show d + min (cap - acc.length) (p.header.dataLen - d) < p.header.dataLen
        omega
      · rw [List.length_append, List.length_take, hpend, List.length_append, hlen_drop]
        omega
      · rw [pending_mk_data, hpend, List.drop_append_eq_append_drop, hlen_drop, hz,
          List.drop_zero, List.drop_drop, hn]

/-- Master lemma of the read engine: on a valid remaining stream a
`readLoop` pass succeeds, appends to the accumulator exactly the next
`cap - acc.length` pending data bytes (in order, without duplication), and
either finishes the session having delivered everything, or stops with the
buffers exactly full in a state that is again a valid continuation whose
pending bytes are the remaining suffix. -/
theorem readLoop_master (algo : ChecksumAlgo) (cap : Nat) :
    ∀ (input : List Packet) (r : Reader) (acc : List Nat),
      ValidCont algo r input → acc.length ≤ cap →
      ∃ r1 input1,
        readLoop algo input r cap acc =
          (Status.ok, acc ++ (pending r input).take (cap - acc.length), r1, input1) ∧
        ((r1.state = State.kFinished ∧ input1 = [] ∧
            (pending r input).length ≤ cap - acc.length) ∨
         (ValidCont algo r1 input1 ∧
            (acc ++ (pending r input).take (cap - acc.length)).length = cap ∧
            pending r1 input1 = (pending r input).drop (cap - acc.length)))
  | [], _, _, hv, _ => absurd rfl hv.1
  | p :: rest, r, acc, hv, hacc => by
    obtain ⟨hne, hlf, hwf, hcase⟩ := hv
    rcases hcase with ⟨hs, hseqok⟩ | ⟨hs, q, qrest, heq, hh, hchain, hlt, hcs⟩
    · obtain ⟨hw1, hw2, hw3⟩ := hwf p (List.mem_cons_self p rest)
      have hseqB : seqnoExpected r p.header = true := by
        cases hoh : r.header with
        | none => simp [seqnoExpected, hoh]
        | some h0 =>
          rw [hoh] at hseqok
          have h1 : p.header.seqno = h0.seqno + 1 := hseqok.1
          simp [seqnoExpected, hoh, h1]
      have hchainP : seqChain p.header.seqno (p :: rest) := by
        cases hoh : r.header with
        | none =>
          rw [hoh] at hseqok
          exact hseqok
        | some h0 =>
          rw [hoh] at hseqok
          exact ⟨rfl, by rw [hseqok.1]; exact hseqok.2⟩
      have hrun := runSteps_of_header algo r p (cap - acc.length) hs hw1 hseqB hw3
      refine master_continue algo cap p rest r
        ({ r with header := some p.header
                  packetLen := p.header.packetLen
                  packetDataReadBytes := min (cap - acc.length) p.header.dataLen
                  chunkPaddingBytes := 0
                  checksum := if r.options.verify_checksum && !p.checksumBytes.isEmpty
                              then p.checksumBytes else []
                  bytesToRead := r.bytesToRead -
                    ((min (cap - acc.length) p.header.dataLen : Nat) : Int)
                  state := State.kReadData })
        acc 0 (fun r2 acc2 => readLoop_master algo cap rest r2 acc2)
        hacc hlf hwf hchainP (Nat.zero_le _) ?_ rfl rfl ?_ ?_ ?_
      · rw [hrun]
        simp
      · simp
      · dsimp only
        split_ifs with hsw
        · exact Or.inr hw3
        · exact Or.inl rfl
      · rw [pending_of_header_state r _ hs, allData_cons, List.drop_zero]
    · injection heq with h1 h2
      subst h1
      subst h2
      have hno : ¬(r.packetDataReadBytes = 0 ∧ r.checksum ≠ [] ∧
          expectedChecksum algo p.dataBytes ≠ r.checksum) := by
        rcases hcs with hc | hc
        · intro hcon
          exact hcon.2.1 hc
        · intro hcon
          exact hcon.2.2 hc.symm
      have hrun := runSteps_of_data algo r p (cap - acc.length) p.header hs hh hno
      refine master_continue algo cap p rest r
        ({ r with packetDataReadBytes := r.packetDataReadBytes +
                    min (cap - acc.length) (p.header.dataLen - r.packetDataReadBytes)
                  bytesToRead := r.bytesToRead -
                    ((min (cap - acc.length)
                      (p.header.dataLen - r.packetDataReadBytes) : Nat) : Int)
                  state := State.kReadData })
        acc r.packetDataReadBytes (fun r2 acc2 => readLoop_master algo cap rest r2 acc2)
        hacc hlf hwf hchain (le_of_lt hlt) hrun hh rfl rfl hcs
        (pending_of_data_state r p rest hs)

theorem driveCalls_finished (algo : ChecksumAlgo) (caps : List Nat) (r : Reader)
    (input : List Packet) (acc : List Nat) (h : r.state = State.kFinished) :
    driveCalls algo caps r input acc = (Status.ok, acc, r, input) := by
  cases caps with
  | nil => rfl
  | cons c cs => simp [driveCalls, h]

theorem validCont_not_terminal (algo : ChecksumAlgo) (r : Reader) (input : List Packet)
    (hv : ValidCont algo r input) :
    ¬(r.state = State.kOpen ∨ r.state = State.kFinished) := by
  rcases hv.2.2.2 with ⟨hs, -⟩ | ⟨hs, -⟩ <;> rw [hs] <;> simp

/-- One productive call: with a valid continuation, a `read_packet` call of
capacity `c` succeeds and delivers the first `c` pending bytes. -/
theorem read_packet_master (algo : ChecksumAlgo) (r : Reader) (input : List Packet)
    (c : Nat) (hv : ValidCont algo r input) :
    ∃ r1 input1,
      read_packet algo r input c =
        (Status.ok, (pending r input).take c, r1, input1) ∧
      ((r1.state = State.kFinished ∧ input1 = [] ∧ (pending r input).length ≤ c) ∨
       (ValidCont algo r1 input1 ∧ ((pending r input).take c).length = c ∧
          pending r1 input1 = (pending r input).drop c)) := by
  obtain ⟨r1, input1, heq, hdisj⟩ := readLoop_master algo c input r [] hv (by simp)
  refine ⟨r1, input1, ?_, ?_⟩
  · rw [read_packet, if_neg (validCont_not_terminal algo r input hv), heq]
    simp
  · simpa using hdisj

/-- Driving repeated calls with positive capacities, one more call than
there are pending bytes, delivers exactly the pending bytes and finishes. -/
theorem driveCalls_complete (algo : ChecksumAlgo) :
    ∀ (caps : List Nat) (r : Reader) (input : List Packet) (acc : List Nat),
      ValidCont algo r input → (∀ c ∈ caps, 1 ≤ c) →
      (pending r input).length < caps.length →
      ∃ r1, driveCalls algo caps r input acc =
          (Status.ok, acc ++ pending r input, r1, []) ∧
        r1.state = State.kFinished
  | [], _, _, _, _, _, hlen => absurd hlen (by simp)
  | c :: cs, r, input, acc, hv, hcaps, hlen => by
    have hsnf : ¬r.state = State.kFinished := fun hc =>
      validCont_not_terminal algo r input hv (Or.inr hc)
    obtain ⟨r1, input1, hrp, hdisj⟩ := read_packet_master algo r input c hv
    have hstep : driveCalls algo (c :: cs) r input acc =
        driveCalls algo cs r1 input1 (acc ++ (pending r input).take c) := by
      simp [driveCalls, hsnf, hrp]
    rcases hdisj with ⟨hf, hi, hlen1⟩ | ⟨hv1, hlen1, hpend1⟩
    · subst hi
      refine ⟨r1, ?_, hf⟩
      rw [hstep, driveCalls_finished algo cs r1 [] _ hf,
        List.take_of_length_le hlen1]
    · have hc1 : 1 ≤ c := hcaps c (List.mem_cons_self c cs)
      have hlenc : c ≤ (pending r input).length := by
        rw [List.length_take] at hlen1
        omega
      have hlen2 : (pending r1 input1).length < cs.length := by
        rw [hpend1, List.length_drop]
        simp only [List.length_cons] at hlen
        omega
      obtain ⟨r2, heq2, hf2⟩ := driveCalls_complete algo cs r1 input1
        (acc ++ (pending r input).take c) hv1
        (fun x hx => hcaps x (List.mem_cons_of_mem c hx)) hlen2
      refine ⟨r2, ?_, hf2⟩
      rw [hstep, heq2, hpend1, List.append_assoc, List.take_append_drop]

/-- Under any schedule of calls, the bytes delivered so far never exceed the
accumulated plus pending byte count. -/
theorem driveCalls_delivered_le (algo : ChecksumAlgo) :
    ∀ (caps : List Nat) (r : Reader) (input : List Packet) (acc : List Nat),
      ValidCont algo r input →
      ((driveCalls algo caps r input acc).2.1).length ≤
        acc.length + (pending r input).length
  | [], _, _, _, _ => by simp [driveCalls]
  | c :: cs, r, input, acc, hv => by
    have hsnf : ¬r.state = State.kFinished := fun hc =>
      validCont_not_terminal algo r input hv (Or.inr hc)
    obtain ⟨r1, input1, hrp, hdisj⟩ := read_packet_master algo r input c hv
    have hstep : driveCalls algo (c :: cs) r input acc =
        driveCalls algo cs r1 input1 (acc ++ (pending r input).take c) := by
      simp [driveCalls, hsnf, hrp]
    rcases hdisj with ⟨hf, hi, hlen1⟩ | ⟨hv1, hlen1, hpend1⟩
    · subst hi
      rw [hstep, driveCalls_finished algo cs r1 [] _ hf]
      simp [List.length_take]
    · rw [hstep]
      refine le_trans (driveCalls_delivered_le algo cs r1 input1 _ hv1) ?_
      rw [hpend1, List.length_drop, List.length_append, List.length_take]
      omega

/-- A `ValidSeq` answering a fresh request is a valid continuation for the
reader right after a successful `request_block`. -/
theorem validSeq_validCont (algo : ChecksumAlgo) (options : BlockReaderOptions)
    (len s0 : Nat) (ps : List Packet) (h : ValidSeq algo len s0 ps) :
    ValidCont algo (readerReady options len) ps := by
  obtain ⟨hne, hchain, hlf, hwf, hsum⟩ := h
  exact ⟨hne, hlf, hwf, Or.inl ⟨rfl, seqOk_of_chain s0 ps hchain⟩⟩

theorem validSeq_allData_length (algo : ChecksumAlgo) (len s0 : Nat)
    (ps : List Packet) (h : ValidSeq algo len s0 ps) :
    (allData ps).length = len := by
  rw [allData_length algo ps h.2.2.2.1]
  exact h.2.2.2.2

/-- Claim C1: for every valid packet sequence answering a read of `len`
bytes, driving the reader with any schedule of positive-capacity
`read_packet` calls (one more call than bytes, to absorb a trailing
zero-length packet) delivers exactly the `len` data bytes of the sequence,
in order and without duplication, and finishes the session; under any
schedule at all the delivered byte count never exceeds `len`; and a single
call that succeeds while delivering fewer bytes than the buffer capacity
can only do so at end-of-block (the session is finished). -/
theorem read_delivers_exact_length (algo : ChecksumAlgo)
    (options : BlockReaderOptions) (len s0 : Nat) (ps : List Packet)
    (caps : List Nat) (hv : ValidSeq algo len s0 ps)
    (hcaps : ∀ c ∈ caps, 1 ≤ c) (hn : len < caps.length) :
    (allData ps).length = len ∧
    (∃ r1, driveCalls algo caps (readerReady options len) ps [] =
        (Status.ok, allData ps, r1, []) ∧ r1.state = State.kFinished) ∧
    (∀ caps2 : List Nat,
      ((driveCalls algo caps2 (readerReady options len) ps []).2.1).length ≤ len) ∧
    (∀ (r : Reader) (input : List Packet) (cap : Nat), ValidCont algo r input →
      (read_packet algo r input cap).1 = Status.ok →
      ((read_packet algo r input cap).2.1).length < cap →
      ((read_packet algo r input cap).2.2.1).state = State.kFinished) := by
  have hvc := validSeq_validCont algo options len s0 ps hv
  have hpend : pending (readerReady options len) ps = allData ps :=
    pending_of_header_state _ _ rfl
  have hlen := validSeq_allData_length algo len s0 ps hv
  refine ⟨hlen, ?_, ?_, ?_⟩
  · obtain ⟨r1, heq, hf⟩ := driveCalls_complete algo caps (readerReady options len)
      ps [] hvc hcaps (by rw [hpend, hlen]; exact hn)
    exact ⟨r1, by rw [heq, hpend, List.nil_append], hf⟩
  · intro caps2
    have := driveCalls_delivered_le algo caps2 (readerReady options len) ps [] hvc
    rw [hpend, hlen] at this
    simpa using this
  · intro r input cap hvci hok hlt
    obtain ⟨r1, input1, heq, hdisj⟩ := read_packet_master algo r input cap hvci
    rcases hdisj with ⟨hf, -, -⟩ | ⟨-, hlen1, -⟩
    · rw [heq]
      exact hf
    · rw [heq] at hlt
      exact absurd hlt (by simp [hlen1])

/-- Claim C1, witness: the two-packet sequence carrying `[10, 11, 12]` and
`[13, 14]` (5 bytes, seqnos 5 and 6, correct checksums) driven with six
calls of capacity 1 delivers exactly those five bytes in order and finishes
the session. -/
theorem read_delivers_exact_length_witness :
    (allData [pktW1, pktW2]).length = 5 ∧
    (∃ r1, driveCalls algoW [1, 1, 1, 1, 1, 1] (readerReady mkBlockReaderOptions 5)
        [pktW1, pktW2] [] = (Status.ok, allData [pktW1, pktW2], r1, []) ∧
      r1.state = State.kFinished) :=
  have h := read_delivers_exact_length algoW mkBlockReaderOptions 5 5
    [pktW1, pktW2] [1, 1, 1, 1, 1, 1]
    (by
      refine ⟨by decide, ⟨rfl, rfl, trivial⟩, ⟨rfl, rfl⟩, ?_, by decide⟩
      intro p hp
      simp only [List.mem_cons, List.not_mem_nil, or_false] at hp
      rcases hp with rfl | rfl
      · exact ⟨by decide, by decide, by decide⟩
      · exact ⟨by decide, by decide, by decide⟩)
    (by decide) (by decide)
  ⟨h.1, h.2.1⟩

theorem read_packet_eq_readLoop (algo : ChecksumAlgo) (r : Reader)
    (input : List Packet) (cap : Nat)
    (h : ¬(r.state = State.kOpen ∨ r.state = State.kFinished)) :
    read_packet algo r input cap = readLoop algo input r cap [] := by
  rw [read_packet, if_neg h]

/-- A resumed mid-packet call never goes back to the header or checksum
bytes: its status, delivered bytes and resulting reader are unchanged if the
in-progress packet's header record and checksum bytes are replaced by
arbitrary values (only the stored header and the data bytes matter). -/
theorem readLoop_resume_ignores (algo : ChecksumAlgo) (r1 : Reader)
    (hdr h2 : PacketHeaderProto) (p : Packet) (cs2 : List Nat)
    (rest : List Packet) (cap2 : Nat)
    (hs1 : r1.state = State.kReadData) (hh1 : r1.header = some hdr)
    (hpd : r1.packetDataReadBytes ≠ 0) :
    (readLoop algo ({ p with header := h2, checksumBytes := cs2 } :: rest) r1 cap2 []).1 =
      (readLoop algo (p :: rest) r1 cap2 []).1 ∧
    (readLoop algo ({ p with header := h2, checksumBytes := cs2 } :: rest) r1 cap2 []).2.1 =
      (readLoop algo (p :: rest) r1 cap2 []).2.1 ∧
    (readLoop algo ({ p with header := h2, checksumBytes := cs2 } :: rest) r1 cap2 []).2.2.1 =
      (readLoop algo (p :: rest) r1 cap2 []).2.2.1 := by
  have hno : ¬(r1.packetDataReadBytes = 0 ∧ r1.checksum ≠ [] ∧
      expectedChecksum algo p.dataBytes ≠ r1.checksum) := fun hcon => hpd hcon.1
  have hrunP := runSteps_of_data algo r1 p cap2 hdr hs1 hh1 hno
  have hrunM : runSteps algo r1 { p with header := h2, checksumBytes := cs2 } cap2 =
      Except.ok ((p.dataBytes.drop r1.packetDataReadBytes).take
          (min cap2 (hdr.dataLen - r1.packetDataReadBytes)),
        { r1 with
            packetDataReadBytes :=
              r1.packetDataReadBytes + min cap2 (hdr.dataLen - r1.packetDataReadBytes)
            bytesToRead := r1.bytesToRead -
              ((min cap2 (hdr.dataLen - r1.packetDataReadBytes) : Nat) : Int)
            state := State.kReadData }) :=
    runSteps_of_data algo r1 { p with header := h2, checksumBytes := cs2 } cap2 hdr
      hs1 hh1 (fun hcon => hpd hcon.1)
  simp only [readLoop, List.length_nil, Nat.sub_zero]
  rw [hrunP, hrunM]
  dsimp only
  rw [hh1]
  dsimp only
  by_cases hdd : r1.packetDataReadBytes +
      min cap2 (hdr.dataLen - r1.packetDataReadBytes) = hdr.dataLen
  · by_cases hl2 : hdr.lastPacketInBlock = true
    · simp [hdd, hl2]
    · by_cases hf2 : ([] ++ (p.dataBytes.drop r1.packetDataReadBytes).take
          (min cap2 (hdr.dataLen - r1.packetDataReadBytes))).length < cap2
      · simp [hdd, hl2, hf2]
      · simp [hdd, hl2, hf2]
  · simp [hdd]

/-- A resumed mid-packet call that stays within the current packet delivers
exactly the next `cap2` bytes of the packet's data, starting at the
remembered read position. -/
theorem readLoop_resume_delivers (algo : ChecksumAlgo) (r1 : Reader)
    (hdr : PacketHeaderProto) (p : Packet) (rest : List Packet) (cap2 : Nat)
    (hs1 : r1.state = State.kReadData) (hh1 : r1.header = some hdr)
    (hpd : r1.packetDataReadBytes ≠ 0)
    (hwd : p.dataBytes.length = hdr.dataLen)
    (hc2 : cap2 ≤ hdr.dataLen - r1.packetDataReadBytes) :
    (readLoop algo (p :: rest) r1 cap2 []).1 = Status.ok ∧
    (readLoop algo (p :: rest) r1 cap2 []).2.1 =
      (p.dataBytes.drop r1.packetDataReadBytes).take cap2 := by
  have hno : ¬(r1.packetDataReadBytes = 0 ∧ r1.checksum ≠ [] ∧
      expectedChecksum algo p.dataBytes ≠ r1.checksum) := fun hcon => hpd hcon.1
  have hrunP := runSteps_of_data algo r1 p cap2 hdr hs1 hh1 hno
  have hmn : min cap2 (hdr.dataLen - r1.packetDataReadBytes) = cap2 :=
    Nat.min_eq_left hc2
  rw [hmn] at hrunP
  have hlddrop : (p.dataBytes.drop r1.packetDataReadBytes).length =
      hdr.dataLen - r1.packetDataReadBytes := by
    rw [List.length_drop, hwd]
  simp only [readLoop, List.length_nil, Nat.sub_zero]
  rw [hrunP]
  dsimp only
  rw [hh1]
  dsimp only
  by_cases hdd : r1.packetDataReadBytes + cap2 = hdr.dataLen
  · rw [if_pos hdd]
    by_cases hl2 : hdr.lastPacketInBlock = true
    · rw [if_pos hl2]
      simp
    · rw [if_neg hl2]
      have hflen : ¬([] ++ (p.dataBytes.drop r1.packetDataReadBytes).take cap2).length
          < cap2 := by
        simp [List.length_take, hlddrop]
        omega
      rw [if_neg hflen]
      simp
  · rw [if_neg hdd]
    simp

/-- Claim C6: when the caller buffers are smaller than one packet's data
(`cap < data_length`), a single call cannot drain the packet: it delivers
the first `cap` data bytes and suspends mid-packet with
`packet_data_read_bytes_ = cap` and the packet still at the head of the
stream, so at least two calls are needed.  The second call resumes at the
remembered position — it delivers the next bytes of the same packet's data
and its outcome is unchanged even if the packet's header record and
checksum bytes are replaced by arbitrary values, showing that neither is
re-consumed. -/
theorem small_buffer_resumes_mid_packet (algo : ChecksumAlgo) (r : Reader)
    (p : Packet) (rest : List Packet) (cap cap2 : Nat)
    (hv : ValidCont algo r (p :: rest)) (hs : r.state = State.kReadPacketHeader)
    (hcap : 0 < cap) (hlt : cap < p.header.dataLen)
    (hc2 : cap2 ≤ p.header.dataLen - cap) :
    ∃ r1,
      read_packet algo r (p :: rest) cap =
        (Status.ok, p.dataBytes.take cap, r1, p :: rest) ∧
      r1.state = State.kReadData ∧
      r1.packetDataReadBytes = cap ∧
      r1.header = some p.header ∧
      (∀ h2 cs2,
        (read_packet algo r1 ({ p with header := h2, checksumBytes := cs2 } :: rest)
            cap2).1 = (read_packet algo r1 (p :: rest) cap2).1 ∧
        (read_packet algo r1 ({ p with header := h2, checksumBytes := cs2 } :: rest)
            cap2).2.1 = (read_packet algo r1 (p :: rest) cap2).2.1 ∧
        (read_packet algo r1 ({ p with header := h2, checksumBytes := cs2 } :: rest)
            cap2).2.2.1 = (read_packet algo r1 (p :: rest) cap2).2.2.1) ∧
      (read_packet algo r1 (p :: rest) cap2).1 = Status.ok ∧
      (read_packet algo r1 (p :: rest) cap2).2.1 =
        (p.dataBytes.drop cap).take cap2 := by
  obtain ⟨hne, hlf, hwf, hcase⟩ := hv
  have hseqok : seqOk r.header (p :: rest) := by
    rcases hcase with ⟨-, hq⟩ | ⟨hkd, -⟩
    · exact hq
    · rw [hs] at hkd
      cases hkd
  obtain ⟨hw1, hw2, hw3⟩ := hwf p (List.mem_cons_self p rest)
  have hseqB : seqnoExpected r p.header = true := by
    cases hoh : r.header with
    | none => simp [seqnoExpected, hoh]
    | some h0 =>
      rw [hoh] at hseqok
      have h1 : p.header.seqno = h0.seqno + 1 := hseqok.1
      simp [seqnoExpected, hoh, h1]
  have hrun := runSteps_of_header algo r p cap hs hw1 hseqB hw3
  have hmn : min cap p.header.dataLen = cap := Nat.min_eq_left (le_of_lt hlt)
  rw [hmn] at hrun
  have hsne : ¬(r.state = State.kOpen ∨ r.state = State.kFinished) := by
    rw [hs]
    simp
  refine ⟨{ r with header := some p.header
                   packetLen := p.header.packetLen
                   packetDataReadBytes := cap
                   chunkPaddingBytes := 0
                   checksum := if r.options.verify_checksum && !p.checksumBytes.isEmpty
                               then p.checksumBytes else []
                   bytesToRead := r.bytesToRead - ((cap : Nat) : Int)
                   state := State.kReadData }, ?_, rfl, rfl, rfl, ?_, ?_, ?_⟩
  · rw [read_packet_eq_readLoop algo r (p :: rest) cap hsne]
    simp only [readLoop, List.length_nil, Nat.sub_zero]
    rw [hrun]
    dsimp only
    rw [if_neg (by omega)]
    simp
  · intro h2 cs2
    have hns : ¬(State.kReadData = State.kOpen ∨ State.kReadData = State.kFinished) := by
      simp
    rw [read_packet_eq_readLoop algo _ _ cap2 hns, read_packet_eq_readLoop algo _ _ cap2 hns]
    exact readLoop_resume_ignores algo _ p.header h2 p cs2 rest cap2 rfl rfl
      (by dsimp only; omega)
  · rw [read_packet_eq_readLoop algo _ _ cap2 (by simp)]
    exact (readLoop_resume_delivers algo _ p.header p rest cap2 rfl rfl
      (by dsimp only; omega) hw2 hc2).1
  · rw [read_packet_eq_readLoop algo _ _ cap2 (by simp)]
    exact (readLoop_resume_delivers algo _ p.header p rest cap2 rfl rfl
      (by dsimp only; omega) hw2 hc2).2

/-- Claim C6, witness: with 2-byte buffers against the 3-data-byte first
test packet, the first call suspends at position 2 and a second 1-byte call
delivers the third byte, indifferent to a corrupted header/checksum. -/
theorem small_buffer_resumes_mid_packet_witness :
    ∃ r1,
      read_packet algoW (readerReady mkBlockReaderOptions 5) [pktW1, pktW2] 2 =
        (Status.ok, pktW1.dataBytes.take 2, r1, [pktW1, pktW2]) ∧
      r1.state = State.kReadData ∧
      r1.packetDataReadBytes = 2 ∧
      r1.header = some pktW1.header ∧
      (∀ h2 cs2,
        (read_packet algoW r1 ({ pktW1 with header := h2, checksumBytes := cs2 } :: [pktW2])
            1).1 = (read_packet algoW r1 (pktW1 :: [pktW2]) 1).1 ∧
        (read_packet algoW r1 ({ pktW1 with header := h2, checksumBytes := cs2 } :: [pktW2])
            1).2.1 = (read_packet algoW r1 (pktW1 :: [pktW2]) 1).2.1 ∧
        (read_packet algoW r1 ({ pktW1 with header := h2, checksumBytes := cs2 } :: [pktW2])
            1).2.2.1 = (read_packet algoW r1 (pktW1 :: [pktW2]) 1).2.2.1) ∧
      (read_packet algoW r1 (pktW1 :: [pktW2]) 1).1 = Status.ok ∧
      (read_packet algoW r1 (pktW1 :: [pktW2]) 1).2.1 =
        (pktW1.dataBytes.drop 2).take 1 :=
  small_buffer_resumes_mid_packet algoW (readerReady mkBlockReaderOptions 5) pktW1
    [pktW2] 2 1
    (by
      refine ⟨by decide, ⟨rfl, rfl⟩, ?_, Or.inl ⟨rfl, ⟨rfl, rfl, trivial⟩⟩⟩
      intro p hp
      simp only [List.mem_cons, List.not_mem_nil, or_false] at hp
      rcases hp with rfl | rfl
      · exact ⟨by decide, by decide, by decide⟩
      · exact ⟨by decide, by decide, by decide⟩)
    rfl (by decide) (by decide) (by decide)

end RemoteBlockReader

end hdfs
